import Mathlib

/-
Verification of the numeric core of ocsmit/canopy (src/canopy/canopy.py):
the snap-raster alignment check (class check_snap), the mosaic gap detector
(class Check_gaps) and the tile-selection objective functions
(__unweighted_ob / __weighted_ob inside objective_function).

Python floats are modelled by rationals; the arithmetic appearing in these
functions (differences, squares, divisions, exact sums via math.fsum) is
faithful over exact rationals.  Fallible Python operations (division by
zero, `del d[k]` on a missing key, indexing an empty list, comparing None
with an int) are modelled with an explicit error monad.
-/

namespace Canopy

/-- Runtime errors the translated Python code can raise. -/
inductive Err
  | keyError
  | divZero
  | indexError
  | typeError
  deriving DecidableEq, Repr

/-- A land-cover histogram: association list from class code to cell count,
as produced by dict(zip(np.unique(arr, return_counts=True))). -/
abbrev Hist := List (Int × Nat)

/-- sum(h.values()) -/
def hsum (h : Hist) : Nat := (h.map Prod.snd).sum

/-- list(h.keys()) -/
def hkeys (h : Hist) : List Int := h.map Prod.fst

/-- h.get(j): the count stored for key j (0 if absent; the code only
reads keys that are present). -/
def hget (h : Hist) (k : Int) : Nat :=
  ((h.find? (fun p => p.1 = k)).map Prod.snd).getD 0

/-- Python true division, raising ZeroDivisionError on a zero divisor. -/
def pydiv (a b : Rat) : Except Err Rat :=
  if b = 0 then .error .divZero else .ok (a / b)

/-- Sequential effectful map over a list: stops at the first error,
like a Python for-loop that raises. -/
def mapE {α β : Type} (f : α → Except Err β) : List α → Except Err (List β)
  | [] => .ok []
  | a :: l =>
    match f a with
    | .error e => .error e
    | .ok b =>
      match mapE f l with
      | .error e => .error e
      | .ok bs => .ok (b :: bs)

/-- Insert a (tile id, score) pair into a list, before the first element of
not-smaller score.  Folding this over a list yields exactly the stable
sort by score performed by sorted(out_index.items(), key=lambda item: item[1]). -/
def insPair (x : Nat × Rat) : List (Nat × Rat) → List (Nat × Rat)
  | [] => [x]
  | y :: l => if x.2 ≤ y.2 then x :: y :: l else y :: insPair x l

/-- Stable sort of (tile id, score) pairs by ascending score, modelling
Python's sorted with key=score (a stable sort by key is extensionally
unique, so any stable algorithm gives the same list as Timsort). -/
def sortPairs : List (Nat × Rat) → List (Nat × Rat)
  | [] => []
  | x :: l => insPair x (sortPairs l)

/-- Insert a natural number into a list before the first not-smaller element. -/
def insNat (x : Nat) : List Nat → List Nat
  | [] => [x]
  | y :: l => if x ≤ y then x :: y :: l else y :: insNat x l

/-- sorted(name_list) for integer tile identifiers. -/
def sortNat : List Nat → List Nat
  | [] => []
  | x :: l => insNat x (sortNat l)

/-- check_snap.__check_float: abs(x1 - x2) <= tolerance. -/
def check_float (x1 x2 tolerance : Rat) : Bool :=
  decide (|x1 - x2| ≤ tolerance)

/-- check_snap.__check_snap: compares the cell dimensions of the snap
raster and the input raster with tolerance 0.0001.  Returns false when the
code raises ValueError and exits (which it does exactly when BOTH axis
checks are False), true when it does nothing. -/
def check_snap (snap_x snap_y in_x in_y : Rat) : Bool :=
  let check_x := check_float snap_x in_x (1 / 10000)
  let check_y := check_float snap_y in_y (1 / 10000)
  if check_y = false ∧ check_x = false then false else true

/-- One per-class term of __unweighted_ob's inner loop over region_lc.keys():
local fraction 0 when class j is absent from the tile, else the tile's own
fraction.  (The source tests membership in tile_unique, the pre-nodata-removal
key set; j ranges over the nodata-stripped region keys, so for every j tested
membership in tile_unique and in the nodata-stripped tile histogram agree.) -/
def classTerm (region_lc tile_lc : Hist) (j : Int) : Except Err Rat :=
  if j ∈ hkeys tile_lc then
    match pydiv (hget region_lc j : Rat) (hsum region_lc : Rat) with
    | .error e => .error e
    | .ok G =>
      match pydiv (hget tile_lc j : Rat) (hsum tile_lc : Rat) with
      | .error e => .error e
      | .ok L => .ok ((G - L) ^ 2)
  else
    match pydiv (hget region_lc j : Rat) (hsum region_lc : Rat) with
    | .error e => .error e
    | .ok G => .ok ((G - 0) ^ 2)

/-- The unweighted minimization value of one tile: the list d of per-class
terms summed by math.fsum (exact over rationals). -/
def tileScore (region_lc tile_lc : Hist) : Except Err Rat :=
  match mapE (classTerm region_lc tile_lc) (hkeys region_lc) with
  | .error e => .error e
  | .ok d => .ok d.sum

/-- out_index of __unweighted_ob: the (tile id, score) pairs accumulated by
iterating name_list in its given order; tileOf i is the nodata-stripped
histogram of the NLCD extract of tile i. -/
def scoreList (region_lc : Hist) (name_list : List Nat) (tileOf : Nat → Hist) :
    Except Err (List (Nat × Rat)) :=
  mapE (fun i =>
    match tileScore region_lc (tileOf i) with
    | .error e => .error e
    | .ok s => .ok (i, s)) name_list

/-- __unweighted_ob: scores every tile, then returns the dict rebuilt from
the score-sorted items. -/
def unweighted_ob (region_lc : Hist) (name_list : List Nat) (tileOf : Nat → Hist) :
    Except Err (List (Nat × Rat)) :=
  match scoreList region_lc name_list tileOf with
  | .error e => .error e
  | .ok out_index => .ok (sortPairs out_index)

/-- One per-class term of __weighted_ob's inner loop: the unweighted term
plus weight * (len(region_lc)/20 - len(tile_lc)/20)**2, added inside every
iteration over region_lc.keys(). -/
def classTermW (region_lc tile_lc : Hist) (weight : Nat) (j : Int) : Except Err Rat :=
  if j ∈ hkeys tile_lc then
    match pydiv (hget region_lc j : Rat) (hsum region_lc : Rat) with
    | .error e => .error e
    | .ok G =>
      match pydiv (hget tile_lc j : Rat) (hsum tile_lc : Rat) with
      | .error e => .error e
      | .ok L =>
        .ok ((G - L) ^ 2 +
          (weight : Rat) * ((region_lc.length : Rat) / 20 - (tile_lc.length : Rat) / 20) ^ 2)
  else
    match pydiv (hget region_lc j : Rat) (hsum region_lc : Rat) with
    | .error e => .error e
    | .ok G =>
      .ok ((G - 0) ^ 2 +
        (weight : Rat) * ((region_lc.length : Rat) / 20 - (tile_lc.length : Rat) / 20) ^ 2)

/-- The weighted minimization value of one tile at a given weight. -/
def tileScoreW (region_lc tile_lc : Hist) (weight : Nat) : Except Err Rat :=
  match mapE (classTermW region_lc tile_lc weight) (hkeys region_lc) with
  | .error e => .error e
  | .ok d => .ok d.sum

/-- out_index of one weight iteration of __weighted_ob: tiles are visited
in sorted(name_list) order. -/
def scoreListW (region_lc : Hist) (name_list : List Nat) (tileOf : Nat → Hist)
    (weight : Nat) : Except Err (List (Nat × Rat)) :=
  mapE (fun i =>
    match tileScoreW region_lc (tileOf i) weight with
    | .error e => .error e
    | .ok s => .ok (i, s)) (sortNat name_list)

/-- The entry __weighted_ob stores for one weight: the head of the
score-sorted items, list(sort_func.items())[0], which raises IndexError
on an empty candidate list. -/
def weightEntry (region_lc : Hist) (name_list : List Nat) (tileOf : Nat → Hist)
    (weight : Nat) : Except Err (Nat × Nat × Rat) :=
  match scoreListW region_lc name_list tileOf weight with
  | .error e => .error e
  | .ok out_index =>
    match sortPairs out_index with
    | [] => .error .indexError
    | p :: _ => .ok (weight, p.1, p.2)

/-- __weighted_ob: the dict weight -> [best tile id, its score] built for
weight in range(21). -/
def weighted_ob (region_lc : Hist) (name_list : List Nat) (tileOf : Nat → Hist) :
    Except Err (List (Nat × Nat × Rat)) :=
  mapE (weightEntry region_lc name_list tileOf) (List.range 21)

/-- Written from the spec's words, for comparison with tileScoreW: the
documented weighted objective F_i(w) = sum_j (G_j / sum G - L_ij / sum L_i)^2
+ w * (number of classes of G / 20 - number of classes of L_i / 20)^2, with
the class-count penalty added exactly once, outside the per-class sum
(total rational division, defined for nonzero denominators). -/
def specWeightedScore (region_lc tile_lc : Hist) (weight : Nat) : Rat :=
  ((hkeys region_lc).map (fun j =>
      ((hget region_lc j : Rat) / (hsum region_lc : Rat) -
        (if j ∈ hkeys tile_lc then (hget tile_lc j : Rat) / (hsum tile_lc : Rat) else 0)) ^ 2)).sum +
    (weight : Rat) * ((region_lc.length : Rat) / 20 - (tile_lc.length : Rat) / 20) ^ 2

/-- A classified raster as a 2-D array: row count, column count and the
cell values (out-of-range indices are never read by the code below). -/
structure Grid where
  rows : Nat
  cols : Nat
  val : Nat → Nat → Int

/-- Build a Grid from a rectangular list of rows. -/
def gridOfList (l : List (List Int)) : Grid :=
  ⟨l.length, (l.headD []).length, fun i j => ((l.getD i []).getD j 0)⟩

/-- Row-major list of index pairs drawn from the given row and column
index lists. -/
def idxPairs : List Nat → List Nat → List (Nat × Nat)
  | [], _ => []
  | a :: rs, cs => cs.map (fun b => (a, b)) ++ idxPairs rs cs

/-- Check_gaps.__neighbors: the cells of the radius-d window around (i, j),
clipped at the array bounds (the center cell itself included, as in the
numpy slice arr[max(i-d,0):min(i+d+1,m), max(j-d,0):min(j+d+1,n)]). -/
def window (g : Grid) (i j : Nat) : List (Nat × Nat) :=
  idxPairs ((List.range g.rows).filter (fun a => decide (i - 1 ≤ a) && decide (a ≤ i + 1)))
           ((List.range g.cols).filter (fun b => decide (j - 1 ≤ b) && decide (b ≤ j + 1)))

/-- val_dict.get(nodata) over the window: the number of window cells whose
value equals the nodata value exactly. -/
def countEq (g : Grid) (nodata : Int) (i j : Nat) : Nat :=
  ((window g i j).filter (fun p => decide (g.val p.1 p.2 = nodata))).length

/-- Claim-side count: window cells at or above the nodata threshold. -/
def countGe (g : Grid) (nodata : Int) (i j : Nat) : Nat :=
  ((window g i j).filter (fun p => decide (nodata ≤ g.val p.1 p.2))).length

/-- Claim-side count of no-data neighbors (the center cell excluded),
with cells equal to the sentinel counted. -/
def nbrsEq (g : Grid) (nodata : Int) (i j : Nat) : Nat :=
  countEq g nodata i j - (if g.val i j = nodata then 1 else 0)

/-- Claim-side count of no-data neighbors (the center cell excluded),
with cells at or above the sentinel counted. -/
def nbrsGe (g : Grid) (nodata : Int) (i j : Nat) : Nat :=
  countGe g nodata i j - (if nodata ≤ g.val i j then 1 else 0)

/-- np.where(arr >= nodata) of Check_gaps.check: the row-major list of
index pairs whose cell value is at or above the nodata value. -/
def scanCells (g : Grid) (nodata : Int) : List (Nat × Nat) :=
  (idxPairs (List.range g.rows) (List.range g.cols)).filter
    (fun p => decide (nodata ≤ g.val p.1 p.2))

/-- The loop body of Check_gaps.check over the scanned cells:
val_dict.get(self.nodata) is None when no window cell equals nodata, and
comparing None <= 2 raises TypeError; a count of at most 2 prints the gap
message and breaks (modelled as returning true); otherwise the loop
continues, ending in no message (false). -/
def checkAux (g : Grid) (nodata : Int) : List (Nat × Nat) → Except Err Bool
  | [] => .ok false
  | p :: rest =>
    if countEq g nodata p.1 p.2 = 0 then .error .typeError
    else if countEq g nodata p.1 p.2 ≤ 2 then .ok true
    else checkAux g nodata rest

/-- Check_gaps.check: whether "Gaps are present in mosaic" is reported. -/
def check (g : Grid) (nodata : Int) : Except Err Bool :=
  checkAux g nodata (scanCells g nodata)

/-- Claim-side predicate: every no-data cell (value at or above the
threshold) has at least 3 no-data neighbors, the solid-border premise. -/
def solidBorderB (g : Grid) (nodata : Int) : Bool :=
  (List.range g.rows).all (fun a => (List.range g.cols).all (fun b =>
    !(decide (nodata ≤ g.val a b)) || decide (3 ≤ nbrsGe g nodata a b)))

/-- Insert an integer into a list: discarded if already present, else
placed before the first larger element (builds np.unique's sorted
distinct value list). -/
def insDedup (x : Int) : List Int → List Int
  | [] => [x]
  | y :: l => if x < y then x :: y :: l else if x = y then y :: l else y :: insDedup x l

/-- The sorted distinct values of an array, as returned by np.unique. -/
def sortedDedup : List Int → List Int
  | [] => []
  | x :: l => insDedup x (sortedDedup l)

/-- dict(zip(np.unique(arr, return_counts=True))): each distinct value
paired with its number of occurrences. -/
def histOf (arr : List Int) : Hist :=
  (sortedDedup arr).map (fun k => (k, arr.count k))

/-- del h[k]: removes the entry for key k, raising KeyError when k is not
a key (keys of histOf are distinct, so filtering drops exactly that entry). -/
def delKey (h : Hist) (k : Int) : Except Err Hist :=
  if k ∈ hkeys h then .ok (h.filter (fun p => decide (p.1 ≠ k))) else .error .keyError

/-- The per-tile body of __unweighted_ob starting from the raw tile array:
build the tile histogram with np.unique, delete the nodata key (KeyError
when absent), then compute the minimization value. -/
def tileEntryArr (region_lc : Hist) (nodata : Int) (arrOf : Nat → List Int)
    (i : Nat) : Except Err (Nat × Rat) :=
  match delKey (histOf (arrOf i)) nodata with
  | .error e => .error e
  | .ok tile_lc =>
    match tileScore region_lc tile_lc with
    | .error e => .error e
    | .ok s => .ok (i, s)

/-- objective_function followed by __unweighted_ob, starting from the raw
region and tile arrays: build the region histogram with np.unique, delete
the nodata key (KeyError when absent), then score every tile and sort. -/
def unweightedArr (regionArr : List Int) (nodata : Int) (name_list : List Nat)
    (arrOf : Nat → List Int) : Except Err (List (Nat × Rat)) :=
  match delKey (histOf regionArr) nodata with
  | .error e => .error e
  | .ok region_lc =>
    match mapE (tileEntryArr region_lc nodata arrOf) name_list with
    | .error e => .error e
    | .ok out_index => .ok (sortPairs out_index)

/-- The per-tile body of __weighted_ob starting from the raw tile array. -/
def tileEntryArrW (region_lc : Hist) (nodata : Int) (arrOf : Nat → List Int)
    (weight : Nat) (i : Nat) : Except Err (Nat × Rat) :=
  match delKey (histOf (arrOf i)) nodata with
  | .error e => .error e
  | .ok tile_lc =>
    match tileScoreW region_lc tile_lc weight with
    | .error e => .error e
    | .ok s => .ok (i, s)

/-- One weight iteration of __weighted_ob starting from the raw tile
arrays: score the tiles in sorted(name_list) order and keep the head of
the score-sorted items. -/
def weightEntryArr (region_lc : Hist) (nodata : Int) (name_list : List Nat)
    (arrOf : Nat → List Int) (weight : Nat) : Except Err (Nat × Nat × Rat) :=
  match mapE (tileEntryArrW region_lc nodata arrOf weight) (sortNat name_list) with
  | .error e => .error e
  | .ok out_index =>
    match sortPairs out_index with
    | [] => .error .indexError
    | p :: _ => .ok (weight, p.1, p.2)

/-- objective_function followed by __weighted_ob, starting from the raw
region and tile arrays. -/
def weightedArr (regionArr : List Int) (nodata : Int) (name_list : List Nat)
    (arrOf : Nat → List Int) : Except Err (List (Nat × Nat × Rat)) :=
  match delKey (histOf regionArr) nodata with
  | .error e => .error e
  | .ok region_lc =>
    mapE (weightEntryArr region_lc nodata name_list arrOf) (List.range 21)

/-- Membership in insPair. -/
theorem mem_insPair {x a : Nat × Rat} {l : List (Nat × Rat)} :
    a ∈ insPair x l ↔ a = x ∨ a ∈ l := by
  induction l with
  | nil => simp [insPair]
  | cons y l ih =>
    by_cases h : x.2 ≤ y.2 <;> simp [insPair, h, ih] <;> tauto

/-- insPair preserves sortedness by score. -/
theorem sorted_insPair {x : Nat × Rat} {l : List (Nat × Rat)}
    (hl : List.Pairwise (fun a b : Nat × Rat => a.2 ≤ b.2) l) :
    List.Pairwise (fun a b : Nat × Rat => a.2 ≤ b.2) (insPair x l) := by
  induction l with
  | nil => simp [insPair]
  | cons y l ih =>
    rcases List.pairwise_cons.mp hl with ⟨hy, hl'⟩
    by_cases h : x.2 ≤ y.2
    · rw [insPair, if_pos h]
      refine List.pairwise_cons.mpr ⟨?_, hl⟩
      intro b hb
      rcases List.mem_cons.mp hb with rfl | hb'
      · exact h
      · exact le_trans h (hy b hb')
    · rw [insPair, if_neg h]
      refine List.pairwise_cons.mpr ⟨?_, ih hl'⟩
      intro b hb
      rcases mem_insPair.mp hb with rfl | hb'
      · exact le_of_not_le h
      · exact hy b hb'

/-- The stable sort by score produces a list weakly ascending by score. -/
theorem sorted_sortPairs (l : List (Nat × Rat)) :
    List.Pairwise (fun a b : Nat × Rat => a.2 ≤ b.2) (sortPairs l) := by
  induction l with
  | nil => simp [sortPairs]
  | cons x l ih => exact sorted_insPair ih

/-- Membership in sortPairs. -/
theorem mem_sortPairs {a : Nat × Rat} {l : List (Nat × Rat)} :
    a ∈ sortPairs l ↔ a ∈ l := by
  induction l with
  | nil => simp [sortPairs]
  | cons x l ih => simp [sortPairs, mem_insPair, ih]

/-- insPair grows the length by one. -/
theorem length_insPair (x : Nat × Rat) (l : List (Nat × Rat)) :
    (insPair x l).length = l.length + 1 := by
  induction l with
  | nil => simp [insPair]
  | cons y l ih => by_cases h : x.2 ≤ y.2 <;> simp [insPair, h, ih]

/-- sortPairs preserves the length. -/
theorem length_sortPairs (l : List (Nat × Rat)) : (sortPairs l).length = l.length := by
  induction l with
  | nil => rfl
  | cons x l ih => rw [sortPairs, length_insPair, ih, List.length_cons]

/-- Inserting a pair commutes with filtering by an exact score value:
the new pair lands in front of the equal-scored ones (stability). -/
theorem filter_insPair (x : Nat × Rat) (l : List (Nat × Rat)) (s : Rat) :
    (insPair x l).filter (fun p => decide (p.2 = s)) =
      if x.2 = s then x :: l.filter (fun p => decide (p.2 = s))
      else l.filter (fun p => decide (p.2 = s)) := by
  induction l with
  | nil => by_cases hx : x.2 = s <;> simp [insPair, hx]
  | cons y l ih =>
    by_cases h : x.2 ≤ y.2
    · rw [insPair, if_pos h]
      by_cases hx : x.2 = s <;> by_cases hy : y.2 = s <;>
        simp [List.filter_cons, hx, hy]
    · rw [insPair, if_neg h]
      have hlt : y.2 < x.2 := lt_of_not_le h
      by_cases hx : x.2 = s
      · have hy : ¬(y.2 = s) := by rw [← hx]; exact ne_of_lt hlt
        simp [List.filter_cons, hx, hy, ih]
      · by_cases hy : y.2 = s <;> simp [List.filter_cons, hx, hy, ih]

/-- Stability of the score sort: the sublist of pairs having any given
score is unchanged, so tied pairs keep their original relative order. -/
theorem filter_sortPairs (l : List (Nat × Rat)) (s : Rat) :
    (sortPairs l).filter (fun p => decide (p.2 = s)) =
      l.filter (fun p => decide (p.2 = s)) := by
  induction l with
  | nil => rfl
  | cons x l ih =>
    rw [sortPairs, filter_insPair]
    by_cases hx : x.2 = s <;> simp [hx, ih, List.filter_cons]

/-- Membership in insNat. -/
theorem mem_insNat {x a : Nat} {l : List Nat} : a ∈ insNat x l ↔ a = x ∨ a ∈ l := by
  induction l with
  | nil => simp [insNat]
  | cons y l ih =>
    by_cases h : x ≤ y <;> simp [insNat, h, ih] <;> tauto

/-- Membership in sortNat. -/
theorem mem_sortNat {a : Nat} {l : List Nat} : a ∈ sortNat l ↔ a ∈ l := by
  induction l with
  | nil => simp [sortNat]
  | cons x l ih => simp [sortNat, mem_insNat, ih]

/-- insNat grows the length by one. -/
theorem length_insNat (x : Nat) (l : List Nat) : (insNat x l).length = l.length + 1 := by
  induction l with
  | nil => simp [insNat]
  | cons y l ih => by_cases h : x ≤ y <;> simp [insNat, h, ih]

/-- sortNat preserves the length. -/
theorem length_sortNat (l : List Nat) : (sortNat l).length = l.length := by
  induction l with
  | nil => rfl
  | cons x l ih => rw [sortNat, length_insNat, ih, List.length_cons]

/-- If every element maps to an ok value described by g, mapE returns the
mapped list. -/
theorem mapE_eq_map {α β : Type} {f : α → Except Err β} {g : α → β} :
    ∀ {l : List α}, (∀ a ∈ l, f a = .ok (g a)) → mapE f l = .ok (l.map g)
  | [], _ => rfl
  | a :: l, h => by
    rw [mapE, h a (List.mem_cons_self a l),
      mapE_eq_map (fun b hb => h b (List.mem_cons_of_mem a hb))]
    rfl

/-- If every element errs with e and the list is nonempty, mapE errs with e. -/
theorem mapE_error_of_forall {α β : Type} {f : α → Except Err β} {e : Err} :
    ∀ {l : List α}, (∀ a ∈ l, f a = .error e) → l ≠ [] → mapE f l = .error e
  | [], _, hne => absurd rfl hne
  | a :: l, h, _ => by rw [mapE, h a (List.mem_cons_self a l)]

/-- If every element either errs with e or succeeds, and some element errs
with e, mapE errs with e (the loop raises at the first bad element). -/
theorem mapE_first_error {α β : Type} {f : α → Except Err β} {e : Err} :
    ∀ {l : List α}, (∀ a ∈ l, f a = .error e ∨ ∃ b, f a = .ok b) →
      (∃ a ∈ l, f a = .error e) → mapE f l = .error e
  | [], _, hex => by simp at hex
  | a :: l, h, hex => by
    rcases h a (List.mem_cons_self a l) with ha | ⟨b, hb⟩
    · rw [mapE, ha]
    · rw [mapE, hb]
      have : ∃ x ∈ l, f x = .error e := by
        obtain ⟨x, hx, hfx⟩ := hex
        rcases List.mem_cons.mp hx with rfl | hx'
        · rw [hfx] at hb; cases hb
        · exact ⟨x, hx', hfx⟩
      rw [mapE_first_error (fun x hx => h x (List.mem_cons_of_mem a hx)) this]

/-- If every element succeeds, mapE succeeds; the result has the same
length and is in elementwise ok-correspondence with the input. -/
theorem mapE_ok_strong {α β : Type} {f : α → Except Err β} :
    ∀ {l : List α}, (∀ a ∈ l, ∃ b, f a = .ok b) →
      ∃ bs, mapE f l = .ok bs ∧ bs.length = l.length ∧
        (∀ p ∈ bs, ∃ a ∈ l, f a = .ok p) ∧ (∀ a ∈ l, ∃ p ∈ bs, f a = .ok p)
  | [], _ => ⟨[], rfl, rfl, by simp, by simp⟩
  | a :: l, h => by
    obtain ⟨b, hb⟩ := h a (List.mem_cons_self a l)
    obtain ⟨bs, hbs, hlen, hmem, hall⟩ :=
      mapE_ok_strong (fun x hx => h x (List.mem_cons_of_mem a hx))
    refine ⟨b :: bs, ?_, by simp [hlen], ?_, ?_⟩
    · rw [mapE, hb, hbs]
    · intro p hp
      rcases List.mem_cons.mp hp with rfl | hp'
      · exact ⟨a, List.mem_cons_self a l, hb⟩
      · obtain ⟨x, hx, hfx⟩ := hmem p hp'
        exact ⟨x, List.mem_cons_of_mem a hx, hfx⟩
    · intro x hx
      rcases List.mem_cons.mp hx with rfl | hx'
      · exact ⟨b, List.mem_cons_self b bs, hb⟩
      · obtain ⟨p, hp, hfp⟩ := hall x hx'
        exact ⟨p, List.mem_cons_of_mem b hp, hfp⟩

/-- If at every weight the entry function returns ok (w, b, s) with b, s
satisfying Q, mapE over the weight list returns a table keyed exactly by
the weight list whose entries all satisfy Q. -/
theorem mapE_table {Q : Nat → Nat → Rat → Prop} {F : Nat → Except Err (Nat × Nat × Rat)} :
    ∀ (ws : List Nat), (∀ w ∈ ws, ∃ b s, F w = .ok (w, b, s) ∧ Q w b s) →
      ∃ table, mapE F ws = .ok table ∧ table.map (fun e => e.1) = ws ∧
        ∀ e ∈ table, Q e.1 e.2.1 e.2.2
  | [], _ => ⟨[], rfl, rfl, by simp⟩
  | w :: ws, h => by
    obtain ⟨b, s, hF, hQ⟩ := h w (List.mem_cons_self w ws)
    obtain ⟨table, htab, hfst, hQs⟩ :=
      mapE_table ws (fun x hx => h x (List.mem_cons_of_mem w hx))
    refine ⟨(w, b, s) :: table, ?_, by simp [hfst], ?_⟩
    · rw [mapE, hF, htab]
    · intro e he
      rcases List.mem_cons.mp he with rfl | he'
      · exact hQ
      · exact hQs e he'

/-- A nonempty histogram list has a nonempty key list. -/
theorem hkeys_ne_nil {h : Hist} (hne : h ≠ []) : hkeys h ≠ [] := by
  cases h with
  | nil => exact absurd rfl hne
  | cons p l => simp [hkeys]

/-- When the region histogram sums to zero, every per-class term raises
ZeroDivisionError: the global fraction G is the first division computed. -/
theorem classTerm_divZero {region_lc tile_lc : Hist} {j : Int}
    (h : hsum region_lc = 0) : classTerm region_lc tile_lc j = .error .divZero := by
  unfold classTerm pydiv
  by_cases hj : j ∈ hkeys tile_lc <;> simp [hj, h]

/-- Weighted analogue of classTerm_divZero. -/
theorem classTermW_divZero {region_lc tile_lc : Hist} {weight : Nat} {j : Int}
    (h : hsum region_lc = 0) :
    classTermW region_lc tile_lc weight j = .error .divZero := by
  unfold classTermW pydiv
  by_cases hj : j ∈ hkeys tile_lc <;> simp [hj, h]

/-- A nonempty region histogram summing to zero makes the unweighted tile
score raise ZeroDivisionError. -/
theorem tileScore_divZero {region_lc tile_lc : Hist}
    (h1 : region_lc ≠ []) (h2 : hsum region_lc = 0) :
    tileScore region_lc tile_lc = .error .divZero := by
  unfold tileScore
  rw [mapE_error_of_forall (fun j _ => classTerm_divZero h2) (hkeys_ne_nil h1)]

/-- Weighted analogue of tileScore_divZero. -/
theorem tileScoreW_divZero {region_lc tile_lc : Hist} {weight : Nat}
    (h1 : region_lc ≠ []) (h2 : hsum region_lc = 0) :
    tileScoreW region_lc tile_lc weight = .error .divZero := by
  unfold tileScoreW
  rw [mapE_error_of_forall (fun j _ => classTermW_divZero h2) (hkeys_ne_nil h1)]

/-- When the region histogram sum is positive and the tile histogram sum
is positive whenever the class is present in the tile, the per-class term
succeeds. -/
theorem classTerm_ok {region_lc tile_lc : Hist} {j : Int}
    (hr : 0 < hsum region_lc) (ht : j ∈ hkeys tile_lc → 0 < hsum tile_lc) :
    ∃ q, classTerm region_lc tile_lc j = .ok q := by
  have hrne : ((hsum region_lc : Nat) : Rat) ≠ 0 := by
    exact_mod_cast Nat.pos_iff_ne_zero.mp hr
  unfold classTerm pydiv
  by_cases hj : j ∈ hkeys tile_lc
  · have htne : ((hsum tile_lc : Nat) : Rat) ≠ 0 := by
      exact_mod_cast Nat.pos_iff_ne_zero.mp (ht hj)
    simp [hj, hrne, htne]
  · simp [hj, hrne]

/-- Weighted analogue of classTerm_ok. -/
theorem classTermW_ok {region_lc tile_lc : Hist} {weight : Nat} {j : Int}
    (hr : 0 < hsum region_lc) (ht : j ∈ hkeys tile_lc → 0 < hsum tile_lc) :
    ∃ q, classTermW region_lc tile_lc weight j = .ok q := by
  have hrne : ((hsum region_lc : Nat) : Rat) ≠ 0 := by
    exact_mod_cast Nat.pos_iff_ne_zero.mp hr
  unfold classTermW pydiv
  by_cases hj : j ∈ hkeys tile_lc
  · have htne : ((hsum tile_lc : Nat) : Rat) ≠ 0 := by
      exact_mod_cast Nat.pos_iff_ne_zero.mp (ht hj)
    simp [hj, hrne, htne]
  · simp [hj, hrne]

/-- The unweighted tile score succeeds whenever each histogram is either
empty or of positive sum (an empty region histogram yields an empty class
loop; an empty tile histogram is never used as a divisor). -/
theorem tileScore_ok {region_lc tile_lc : Hist}
    (hr : region_lc = [] ∨ 0 < hsum region_lc)
    (ht : tile_lc = [] ∨ 0 < hsum tile_lc) :
    ∃ q, tileScore region_lc tile_lc = .ok q := by
  rcases hr with rfl | hr
  · exact ⟨0, rfl⟩
  · have hterm : ∀ j ∈ hkeys region_lc, ∃ q, classTerm region_lc tile_lc j = .ok q := by
      intro j _
      refine classTerm_ok hr ?_
      intro hj
      rcases ht with rfl | ht
      · simp [hkeys] at hj
      · exact ht
    obtain ⟨bs, hbs, -⟩ := mapE_ok_strong hterm
    exact ⟨bs.sum, by rw [tileScore, hbs]⟩

/-- Weighted analogue of tileScore_ok. -/
theorem tileScoreW_ok {region_lc tile_lc : Hist} {w : Nat}
    (hr : region_lc = [] ∨ 0 < hsum region_lc)
    (ht : tile_lc = [] ∨ 0 < hsum tile_lc) :
    ∃ q, tileScoreW region_lc tile_lc w = .ok q := by
  rcases hr with rfl | hr
  · exact ⟨0, rfl⟩
  · have hterm : ∀ j ∈ hkeys region_lc,
        ∃ q, classTermW region_lc tile_lc w j = .ok q := by
      intro j _
      refine classTermW_ok hr ?_
      intro hj
      rcases ht with rfl | ht
      · simp [hkeys] at hj
      · exact ht
    obtain ⟨bs, hbs, -⟩ := mapE_ok_strong hterm
    exact ⟨bs.sum, by rw [tileScoreW, hbs]⟩

/-- C1: the code evaluated at the failing input.  With reference cell
dimensions (1, 1) and candidate dimensions (2, 1), the width difference 1
exceeds the tolerance 1/10000, so by the claim the check must fail; the
code passes it, because __check_snap raises only when both axis checks are
False simultaneously, contradicting its own comment ("If both dimensions
fall within tolerance do nothing. If not then raise error"). -/
theorem C1_code_eval :
    check_snap 1 1 2 1 = true ∧ ¬(|(1 : Rat) - 2| ≤ 1 / 10000) := by
  constructor
  · simp [check_snap, check_float]
  · norm_num

/-- C2: the alignment check raises its error (modelled as returning false)
exactly when both the width check and the height check fail the 0.0001
tolerance; consequently an input whose dimensions mismatch the reference
on only one axis passes without error. -/
theorem C2_dual_condition :
    ∀ snap_x snap_y in_x in_y : Rat,
      check_snap snap_x snap_y in_x in_y = false ↔
        (¬(|snap_x - in_x| ≤ 1 / 10000) ∧ ¬(|snap_y - in_y| ≤ 1 / 10000)) := by
  intro sx sy ix iy
  by_cases hx : |sx - ix| ≤ 1 / 10000 <;> by_cases hy : |sy - iy| ≤ 1 / 10000 <;>
    simp [check_snap, check_float, hx, hy, and_comm]

/-- C3: the code evaluated at the failing input.  For region histogram
{1: 1, 2: 1} (2 classes), tile histogram {1: 1} (1 class) and weight 1,
__weighted_ob computes 101/200: the class-count penalty
(2/20 - 1/20)^2 = 1/400 is added inside every iteration of the per-class
loop, hence twice; the documented formula with the penalty added exactly
once, outside the sum, gives 201/400 instead. -/
theorem C3_code_eval :
    tileScoreW [(1, 1), (2, 1)] [(1, 1)] 1 = .ok (101 / 200) ∧
    specWeightedScore [(1, 1), (2, 1)] [(1, 1)] 1 = 201 / 400 ∧
    ((101 : Rat) / 200) ≠ 201 / 400 := by
  refine ⟨?_, ?_, by norm_num⟩
  · simp [tileScoreW, mapE, classTermW, hkeys, hsum, hget, pydiv]
    norm_num
  · simp [specWeightedScore, hkeys, hsum, hget]
    norm_num

/-- C4, counterexample: on the 1-by-1 grid [[4]] with no-data threshold 3,
the single cell is at or above the threshold and its clipped neighborhood
contains at most 2 no-data cells under either counting (1 cell at or above
the threshold, 0 cells equal to it), yet the detector does not flag a gap:
it crashes with a TypeError, because no neighborhood cell equals the
sentinel exactly, so val_dict.get(nodata) is None and None <= 2 raises. -/
theorem C4_counterexample :
    (3 : Int) ≤ (gridOfList [[4]]).val 0 0 ∧
    countGe (gridOfList [[4]]) 3 0 0 ≤ 2 ∧
    countEq (gridOfList [[4]]) 3 0 0 ≤ 2 ∧
    check (gridOfList [[4]]) 3 = .error .typeError :=
  ⟨by decide, by decide, by decide, rfl⟩

/-- C5, counterexample: on the 2-by-2 grid [[4,4],[4,4]] with threshold 3,
every no-data cell (all four, value 4 at or above the threshold) has at
least 3 no-data neighbors, the claim's solid-border premise, so the claim
says the detector returns false; instead it crashes with a TypeError
(no cell equals the sentinel exactly, so val_dict.get(nodata) is None). -/
theorem C5_counterexample :
    solidBorderB (gridOfList [[4, 4], [4, 4]]) 3 = true ∧
    check (gridOfList [[4, 4], [4, 4]]) 3 = .error .typeError :=
  ⟨rfl, rfl⟩

/-- C6, counterexample: with region histogram {1: 1} and the single tile 0
whose histogram is empty (sum zero), the claim demands failure with an
empty-histogram error; the scorer instead returns the score table
[(0, 1)], since a class absent from the tile is scored with local
fraction 0 and the tile's zero sum is never used as a divisor. -/
theorem C6_counterexample :
    hsum ([] : Hist) = 0 ∧
    unweighted_ob [(1, 1)] [0] (fun _ => []) = .ok [(0, 1)] := by
  refine ⟨rfl, ?_⟩
  simp [unweighted_ob, scoreList, mapE, tileScore, classTerm, hkeys, hsum, hget, pydiv,
    sortPairs, insPair]

/-- C7, counterexample: __unweighted_ob iterates name_list in its given
order, not in sorted identifier order.  With name_list [2, 1] and both
tiles scoring 0 (identical to the region), the tied identifiers appear as
2 before 1 in the output, not in ascending identifier order. -/
theorem C7_counterexample :
    unweighted_ob [(1, 1)] [2, 1] (fun _ => [(1, 1)]) = .ok [(2, 0), (1, 0)] ∧
    ¬ List.Pairwise (fun a b : Nat × Rat => a.2 = b.2 → a.1 ≤ b.1)
        [((2 : Nat), (0 : Rat)), (1, 0)] := by
  constructor
  · simp [unweighted_ob, scoreList, mapE, tileScore, classTerm, hkeys, hsum, hget, pydiv,
      sortPairs, insPair]
  · simp

/-- C9, counterexample: on an empty candidate list the weighted scorer
does not return a table of 21 entries; list(sort_func.items())[0] raises
IndexError at the first weight. -/
theorem C9_counterexample :
    weighted_ob [(1, 1)] [] (fun _ => []) = .error .indexError := by
  simp [weighted_ob, mapE, List.range, List.range.loop, weightEntry, scoreListW, sortNat,
    sortPairs]

/-- C6, amended: a genuine division-by-zero failure occurs exactly in the
case the counterexample leaves: when the region histogram is nonempty yet
sums to zero (so the global fraction divides by zero) and there is at
least one candidate tile, both scoring modes fail with a
ZeroDivisionError; a zero-sum (empty) tile histogram or an empty region
histogram does not cause a failure. -/
theorem C6_amended (region_lc : Hist) (name_list : List Nat) (tileOf : Nat → Hist)
    (h1 : region_lc ≠ []) (h2 : hsum region_lc = 0) (h3 : name_list ≠ []) :
    unweighted_ob region_lc name_list tileOf = .error .divZero ∧
    weighted_ob region_lc name_list tileOf = .error .divZero := by
  constructor
  · unfold unweighted_ob scoreList
    rw [mapE_error_of_forall (fun i _ => by rw [tileScore_divZero h1 h2]) h3]
  · unfold weighted_ob
    have hentry : ∀ w ∈ List.range 21,
        weightEntry region_lc name_list tileOf w = .error .divZero := by
      intro w _
      unfold weightEntry scoreListW
      have hsne : sortNat name_list ≠ [] := by
        intro hnil
        have := length_sortNat name_list
        rw [hnil] at this
        exact h3 (List.eq_nil_of_length_eq_zero this.symm)
      rw [mapE_error_of_forall (fun i _ => by rw [tileScoreW_divZero h1 h2]) hsne]
    rw [mapE_error_of_forall hentry (by decide)]

/-- C6, witness at a concrete input: region histogram {1: 0} (nonempty,
zero sum) with one candidate tile of histogram {1: 1}. -/
theorem C6_witness :
    unweighted_ob [(1, 0)] [0] (fun _ => [(1, 1)]) = .error .divZero ∧
    weighted_ob [(1, 0)] [0] (fun _ => [(1, 1)]) = .error .divZero :=
  C6_amended [(1, 0)] [0] (fun _ => [(1, 1)]) (by decide) rfl (by decide)

/-- C7, amended: on every input on which scoring succeeds, the unweighted
scorer's output is the stable sort of the per-tile scores accumulated in
name_list order: it is weakly ascending by score, and candidates with
exactly tied scores appear in the order of the input candidate list (which
__unweighted_ob iterates as given, not sorted); the scorer is a pure
function, so re-running on the same input yields the identical output. -/
theorem C7_amended (region_lc : Hist) (name_list : List Nat) (tileOf : Nat → Hist)
    (out_index : List (Nat × Rat))
    (h : scoreList region_lc name_list tileOf = .ok out_index) :
    unweighted_ob region_lc name_list tileOf = .ok (sortPairs out_index) ∧
    List.Pairwise (fun a b : Nat × Rat => a.2 ≤ b.2) (sortPairs out_index) ∧
    ∀ s : Rat, (sortPairs out_index).filter (fun p => decide (p.2 = s)) =
      out_index.filter (fun p => decide (p.2 = s)) := by
  refine ⟨?_, sorted_sortPairs out_index, fun s => filter_sortPairs out_index s⟩
  unfold unweighted_ob
  rw [h]

/-- C7, witness at a concrete input: region histogram {1: 1}, candidates
[5, 7] both identical to the region. -/
theorem C7_witness :
    unweighted_ob [(1, 1)] [5, 7] (fun _ => [(1, 1)]) = .ok (sortPairs [(5, 0), (7, 0)]) := by
  refine (C7_amended [(1, 1)] [5, 7] (fun _ => [(1, 1)]) [(5, 0), (7, 0)] ?_).1
  simp [scoreList, mapE, tileScore, classTerm, hkeys, hsum, hget, pydiv]

/-- C8: a tile whose histogram is identical to the region's receives an
unweighted score of exactly 0: every per-class term is
(G_j - G_j)^2 = 0 and the exact sum of zeros is 0. -/
theorem C8_identical_tile_scores_zero (region_lc : Hist) (h : 0 < hsum region_lc) :
    tileScore region_lc region_lc = .ok 0 := by
  have hne : ((hsum region_lc : Nat) : Rat) ≠ 0 := by
    exact_mod_cast Nat.pos_iff_ne_zero.mp h
  have hterm : ∀ j ∈ hkeys region_lc,
      classTerm region_lc region_lc j = .ok ((fun _ => (0 : Rat)) j) := by
    intro j hj
    unfold classTerm pydiv
    simp [hj, hne]
  rw [tileScore, mapE_eq_map hterm]
  simp

/-- C8, witness at a concrete input: histogram {1: 2}. -/
theorem C8_witness : tileScore [(1, 2)] [(1, 2)] = .ok 0 :=
  C8_identical_tile_scores_zero [(1, 2)] (by decide)

/-- Membership in the row-major index-pair list. -/
theorem mem_idxPairs {i j : Nat} : ∀ {rs cs : List Nat},
    (i, j) ∈ idxPairs rs cs ↔ i ∈ rs ∧ j ∈ cs := by
  intro rs cs
  induction rs with
  | nil => simp [idxPairs]
  | cons a rs ih =>
    simp only [idxPairs, List.mem_append, List.mem_map, List.mem_cons, ih, Prod.mk.injEq]
    constructor
    · rintro (⟨b, hb, rfl, rfl⟩ | ⟨hi, hj⟩)
      · exact ⟨Or.inl rfl, hb⟩
      · exact ⟨Or.inr hi, hj⟩
    · rintro ⟨rfl | hi, hj⟩
      · exact Or.inl ⟨j, hj, rfl, rfl⟩
      · exact Or.inr ⟨hi, hj⟩

/-- The center cell belongs to its own clipped window. -/
theorem self_mem_window {g : Grid} {i j : Nat} (hi : i < g.rows) (hj : j < g.cols) :
    (i, j) ∈ window g i j := by
  unfold window
  rw [mem_idxPairs]
  constructor <;> rw [List.mem_filter] <;>
    simp only [List.mem_range, Bool.and_eq_true, decide_eq_true_eq] <;> omega

/-- A scanned cell whose value equals the sentinel contributes itself to
its own window count, so the count is positive. -/
theorem countEq_pos {g : Grid} {nodata : Int} {i j : Nat}
    (hi : i < g.rows) (hj : j < g.cols) (hv : g.val i j = nodata) :
    0 < countEq g nodata i j := by
  unfold countEq
  have hmem : (i, j) ∈ (window g i j).filter
      (fun p => decide (g.val p.1 p.2 = nodata)) := by
    rw [List.mem_filter]
    exact ⟨self_mem_window hi hj, by simp [hv]⟩
  exact List.length_pos.mpr (List.ne_nil_of_mem hmem)

/-- The scanned cells are exactly the in-bounds cells whose value is at or
above the nodata value. -/
theorem mem_scanCells {g : Grid} {nodata : Int} {i j : Nat} :
    (i, j) ∈ scanCells g nodata ↔ i < g.rows ∧ j < g.cols ∧ nodata ≤ g.val i j := by
  unfold scanCells
  rw [List.mem_filter, mem_idxPairs]
  simp only [List.mem_range, decide_eq_true_eq]
  tauto

/-- If every scanned cell has a positive window count (no TypeError) and
some scanned cell has count at most 2, the scan reports a gap. -/
theorem checkAux_ok_true {g : Grid} {nodata : Int} :
    ∀ {l : List (Nat × Nat)}, (∀ p ∈ l, 0 < countEq g nodata p.1 p.2) →
      (∃ p ∈ l, countEq g nodata p.1 p.2 ≤ 2) → checkAux g nodata l = .ok true
  | [], _, hex => by simp at hex
  | q :: rest, hpos, hex => by
    have hq0 : ¬(countEq g nodata q.1 q.2 = 0) := by
      have := hpos q (List.mem_cons_self q rest)
      omega
    rw [checkAux, if_neg hq0]
    by_cases hle : countEq g nodata q.1 q.2 ≤ 2
    · rw [if_pos hle]
    · rw [if_neg hle]
      refine checkAux_ok_true (fun p hp => hpos p (List.mem_cons_of_mem q hp)) ?_
      obtain ⟨p, hp, hple⟩ := hex
      rcases List.mem_cons.mp hp with rfl | hp'
      · exact absurd hple hle
      · exact ⟨p, hp', hple⟩

/-- If every scanned cell has window count above 2, the scan finishes
without flagging a gap. -/
theorem checkAux_ok_false {g : Grid} {nodata : Int} :
    ∀ {l : List (Nat × Nat)}, (∀ p ∈ l, 2 < countEq g nodata p.1 p.2) →
      checkAux g nodata l = .ok false
  | [], _ => rfl
  | q :: rest, hgt => by
    have h := hgt q (List.mem_cons_self q rest)
    rw [checkAux, if_neg (by omega), if_neg (by omega)]
    exact checkAux_ok_false (fun p hp => hgt p (List.mem_cons_of_mem q hp))

/-- C4, amended: restricted to grids whose values never exceed the
sentinel (so that the no-data cells are exactly the sentinel-valued ones
and val_dict.get never returns None), any in-bounds sentinel cell whose
clipped radius-1 neighborhood contains at most 2 sentinel cells makes the
detector report that gaps are present. -/
theorem C4_amended (g : Grid) (nodata : Int) (i j : Nat)
    (hle : ∀ a ∈ List.range g.rows, ∀ b ∈ List.range g.cols, g.val a b ≤ nodata)
    (hi : i < g.rows) (hj : j < g.cols) (hv : g.val i j = nodata)
    (hc : countEq g nodata i j ≤ 2) :
    check g nodata = .ok true := by
  unfold check
  apply checkAux_ok_true
  · intro p hp
    obtain ⟨a, b⟩ := p
    obtain ⟨ha, hb, hge⟩ := mem_scanCells.mp hp
    have hab : g.val a b = nodata :=
      le_antisymm (hle a (List.mem_range.mpr ha) b (List.mem_range.mpr hb)) hge
    exact countEq_pos ha hb hab
  · exact ⟨(i, j), mem_scanCells.mpr ⟨hi, hj, le_of_eq hv.symm⟩, hc⟩

/-- C4, witness at a concrete input: a single isolated no-data cell in the
middle of a 3-by-3 grid of valid cells is flagged. -/
theorem C4_witness :
    check (gridOfList [[0, 0, 0], [0, 3, 0], [0, 0, 0]]) 3 = .ok true :=
  C4_amended (gridOfList [[0, 0, 0], [0, 3, 0], [0, 0, 0]]) 3 1 1
    (by decide) (by decide) (by decide) (by decide) (by decide)

/-- C5, amended: the detector reports no gap on every grid with no cell at
or above the threshold, and, restricted to grids whose values never
exceed the sentinel (the restriction the counterexample forces), on every
grid whose sentinel cells each have at least 3 sentinel neighbors. -/
theorem C5_amended :
    (∀ (g : Grid) (nodata : Int),
      (∀ a ∈ List.range g.rows, ∀ b ∈ List.range g.cols, g.val a b < nodata) →
      check g nodata = .ok false) ∧
    (∀ (g : Grid) (nodata : Int),
      (∀ a ∈ List.range g.rows, ∀ b ∈ List.range g.cols, g.val a b ≤ nodata) →
      (∀ a ∈ List.range g.rows, ∀ b ∈ List.range g.cols,
        g.val a b = nodata → 3 ≤ nbrsEq g nodata a b) →
      check g nodata = .ok false) := by
  constructor
  · intro g nodata hlt
    have hscan : scanCells g nodata = [] := by
      unfold scanCells
      refine List.filter_eq_nil_iff.mpr ?_
      intro p hp
      obtain ⟨a, b⟩ := p
      rw [mem_idxPairs] at hp
      simp only [decide_eq_true_eq, not_le]
      exact hlt a hp.1 b hp.2
    rw [check, hscan]
    rfl
  · intro g nodata hle hbord
    unfold check
    apply checkAux_ok_false
    intro p hp
    obtain ⟨a, b⟩ := p
    obtain ⟨ha, hb, hge⟩ := mem_scanCells.mp hp
    have hab : g.val a b = nodata :=
      le_antisymm (hle a (List.mem_range.mpr ha) b (List.mem_range.mpr hb)) hge
    have h3 : 3 ≤ nbrsEq g nodata a b :=
      hbord a (List.mem_range.mpr ha) b (List.mem_range.mpr hb) hab
    have h1 : 0 < countEq g nodata a b := countEq_pos ha hb hab
    unfold nbrsEq at h3
    rw [if_pos hab] at h3
    show 2 < countEq g nodata a b
    omega

/-- C5, witnesses at concrete inputs: a grid with no no-data cell, and a
2-by-2 all-sentinel grid in which every sentinel cell has exactly 3
sentinel neighbors. -/
theorem C5_witness :
    check (gridOfList [[0]]) 3 = .ok false ∧
    check (gridOfList [[3, 3], [3, 3]]) 3 = .ok false :=
  ⟨C5_amended.1 (gridOfList [[0]]) 3 (by decide),
   C5_amended.2 (gridOfList [[3, 3], [3, 3]]) 3 (by decide) (by decide)⟩

/-- When no histogram causes a zero division, one weight iteration scores
every candidate: the resulting pair list covers exactly the candidates,
each paired with its weighted tile score. -/
theorem scoreListW_ok (region_lc : Hist) (name_list : List Nat) (tileOf : Nat → Hist)
    (w : Nat)
    (h2 : region_lc = [] ∨ 0 < hsum region_lc)
    (h3 : ∀ i ∈ name_list, tileOf i = [] ∨ 0 < hsum (tileOf i)) :
    ∃ pairs, scoreListW region_lc name_list tileOf w = .ok pairs ∧
      pairs.length = name_list.length ∧
      (∀ p ∈ pairs, p.1 ∈ name_list ∧ tileScoreW region_lc (tileOf p.1) w = .ok p.2) ∧
      (∀ i ∈ name_list, ∃ s, (i, s) ∈ pairs ∧
        tileScoreW region_lc (tileOf i) w = .ok s) := by
  have hok : ∀ i ∈ sortNat name_list, ∃ p : Nat × Rat,
      (fun i => match tileScoreW region_lc (tileOf i) w with
        | .error e => (.error e : Except Err (Nat × Rat))
        | .ok s => .ok (i, s)) i = .ok p := by
    intro i hi
    obtain ⟨q, hq⟩ := tileScoreW_ok (w := w) h2 (h3 i (mem_sortNat.mp hi))
    exact ⟨(i, q), by simp only [hq]⟩
  obtain ⟨pairs, hpairs, hlen, hmem, hall⟩ := mapE_ok_strong hok
  refine ⟨pairs, ?_, by rw [hlen, length_sortNat], ?_, ?_⟩
  · unfold scoreListW
    exact hpairs
  · intro p hp
    obtain ⟨a, ha, hfa⟩ := hmem p hp
    cases hta : tileScoreW region_lc (tileOf a) w with
    | error e => rw [hta] at hfa; cases hfa
    | ok s =>
      rw [hta] at hfa
      injection hfa with h
      rw [← h]
      exact ⟨mem_sortNat.mp ha, hta⟩
  · intro i hi
    obtain ⟨p, hp, hfi⟩ := hall i (mem_sortNat.mpr hi)
    cases hti : tileScoreW region_lc (tileOf i) w with
    | error e => rw [hti] at hfi; cases hfi
    | ok s =>
      rw [hti] at hfi
      injection hfi with h
      rw [← h] at hp
      exact ⟨s, hp, rfl⟩

/-- At every weight, with a nonempty candidate list and no zero
divisions, __weighted_ob's entry for that weight is the head of the
score-sorted pair list: a candidate whose score is minimal among all
candidates at that weight. -/
theorem weightEntry_ok (region_lc : Hist) (name_list : List Nat) (tileOf : Nat → Hist)
    (w : Nat) (h1 : name_list ≠ [])
    (h2 : region_lc = [] ∨ 0 < hsum region_lc)
    (h3 : ∀ i ∈ name_list, tileOf i = [] ∨ 0 < hsum (tileOf i)) :
    ∃ b s, weightEntry region_lc name_list tileOf w = .ok (w, b, s) ∧
      (b ∈ name_list ∧ tileScoreW region_lc (tileOf b) w = .ok s ∧
        ∀ i ∈ name_list, ∀ si,
          tileScoreW region_lc (tileOf i) w = .ok si → s ≤ si) := by
  obtain ⟨pairs, hpairs, hlen, hmem, hall⟩ :=
    scoreListW_ok region_lc name_list tileOf w h2 h3
  have hpne : pairs ≠ [] := by
    intro hnil
    rw [hnil] at hlen
    exact h1 (List.eq_nil_of_length_eq_zero hlen.symm)
  cases hsp : sortPairs pairs with
  | nil =>
    exfalso
    have hl := length_sortPairs pairs
    rw [hsp] at hl
    exact hpne (List.eq_nil_of_length_eq_zero hl.symm)
  | cons p t =>
    have hphead : p ∈ pairs := by
      refine mem_sortPairs.mp ?_
      rw [hsp]
      exact List.mem_cons_self p t
    refine ⟨p.1, p.2, ?_, (hmem p hphead).1, (hmem p hphead).2, ?_⟩
    · unfold weightEntry
      rw [hpairs]
      simp only [hsp]
    · intro i hi si hsi
      obtain ⟨s', hsmem, hs'⟩ := hall i hi
      have hseq : s' = si := by
        rw [hs'] at hsi
        injection hsi
      subst hseq
      have hmem2 : (i, s') ∈ sortPairs pairs := mem_sortPairs.mpr hsmem
      rw [hsp] at hmem2
      rcases List.mem_cons.mp hmem2 with heq | hmem3
      · rw [← heq]
      · have hsorted := sorted_sortPairs pairs
        rw [hsp] at hsorted
        exact (List.pairwise_cons.mp hsorted).1 (i, s') hmem3

/-- C9, amended: on every input with at least one candidate tile, in which
neither the region histogram nor any tile histogram is nonempty with a
zero sum, the weighted scorer succeeds, and its table has exactly 21
entries, keyed in order by the integer weights 0 through 20, each mapping
its weight to a candidate whose score at that weight is lowest among all
candidates, together with that score. -/
theorem C9_amended (region_lc : Hist) (name_list : List Nat) (tileOf : Nat → Hist)
    (h1 : name_list ≠ [])
    (h2 : region_lc = [] ∨ 0 < hsum region_lc)
    (h3 : ∀ i ∈ name_list, tileOf i = [] ∨ 0 < hsum (tileOf i)) :
    (weighted_ob region_lc name_list tileOf).isOk = true ∧
    ∀ table, weighted_ob region_lc name_list tileOf = .ok table →
      table.length = 21 ∧ table.map (fun e => e.1) = List.range 21 ∧
      ∀ e ∈ table, e.2.1 ∈ name_list ∧
        tileScoreW region_lc (tileOf e.2.1) e.1 = .ok e.2.2 ∧
        ∀ i ∈ name_list, ∀ si,
          tileScoreW region_lc (tileOf i) e.1 = .ok si → e.2.2 ≤ si := by
  obtain ⟨table, htab, hfst, hQ⟩ :=
    mapE_table (Q := fun w b s => b ∈ name_list ∧
        tileScoreW region_lc (tileOf b) w = .ok s ∧
        ∀ i ∈ name_list, ∀ si, tileScoreW region_lc (tileOf i) w = .ok si → s ≤ si)
      (F := weightEntry region_lc name_list tileOf) (List.range 21)
      (fun w _ => weightEntry_ok region_lc name_list tileOf w h1 h2 h3)
  have hob : weighted_ob region_lc name_list tileOf = .ok table := by
    unfold weighted_ob
    exact htab
  rw [hob]
  refine ⟨rfl, ?_⟩
  intro table' heq
  injection heq with h
  subst h
  have hlen : table.length = 21 := by
    have := congrArg List.length hfst
    simpa using this
  exact ⟨hlen, hfst, hQ⟩

/-- C9, witness at a concrete input: region histogram {1: 1} with the one
candidate 0 of identical histogram. -/
theorem C9_witness : (weighted_ob [(1, 1)] [0] (fun _ => [(1, 1)])).isOk = true :=
  (C9_amended [(1, 1)] [0] (fun _ => [(1, 1)]) (by decide) (by decide) (by decide)).1

/-- Membership in insDedup. -/
theorem mem_insDedup {x a : Int} {l : List Int} : a ∈ insDedup x l ↔ a = x ∨ a ∈ l := by
  induction l with
  | nil => simp [insDedup]
  | cons y l ih =>
    by_cases h1 : x < y
    · simp [insDedup, h1]
    · by_cases h2 : x = y
      · subst h2
        have he : insDedup x (x :: l) = x :: l := by
          simp [insDedup, h1]
        rw [he, List.mem_cons]
        tauto
      · simp only [insDedup, if_neg h1, if_neg h2, List.mem_cons, ih]
        tauto

/-- Membership in sortedDedup: np.unique preserves the value set. -/
theorem mem_sortedDedup {a : Int} : ∀ {l : List Int}, a ∈ sortedDedup l ↔ a ∈ l
  | [] => Iff.rfl
  | x :: l => by
    rw [sortedDedup, mem_insDedup, mem_sortedDedup, List.mem_cons]

/-- The keys of histOf arr are exactly the values occurring in arr. -/
theorem mem_hkeys_histOf {k : Int} {arr : List Int} :
    k ∈ hkeys (histOf arr) ↔ k ∈ arr := by
  unfold histOf hkeys
  rw [List.map_map]
  simp [mem_sortedDedup]

/-- Every count stored by histOf is positive. -/
theorem histOf_pos {arr : List Int} {p : Int × Nat} (hp : p ∈ histOf arr) : 0 < p.2 := by
  unfold histOf at hp
  obtain ⟨k, hk, rfl⟩ := List.mem_map.mp hp
  simpa using List.count_pos_iff.mpr (mem_sortedDedup.mp hk)

/-- A nonempty histogram of positive counts has a positive sum. -/
theorem hsum_pos {h : Hist} (hpos : ∀ p ∈ h, 0 < p.2) (hne : h ≠ []) : 0 < hsum h := by
  cases h with
  | nil => exact absurd rfl hne
  | cons p l =>
    have := hpos p (List.mem_cons_self p l)
    unfold hsum
    simp only [List.map_cons, List.sum_cons]
    omega

/-- del h[k] succeeds exactly on present keys, with the stated residue. -/
theorem delKey_ok_of_mem {h : Hist} {k : Int} (hk : k ∈ hkeys h) :
    delKey h k = .ok (h.filter (fun p => decide (p.1 ≠ k))) := by
  unfold delKey
  rw [if_pos hk]

/-- del h[k] raises KeyError on an absent key. -/
theorem delKey_error {h : Hist} {k : Int} (hk : k ∉ hkeys h) :
    delKey h k = .error .keyError := by
  unfold delKey
  rw [if_neg hk]

/-- A histogram obtained from an array by np.unique followed by nodata
deletion is empty or has positive sum: every surviving count is positive. -/
theorem cleanHist_cases {arr : List Int} {nodata : Int} {h' : Hist}
    (hd : delKey (histOf arr) nodata = .ok h') : h' = [] ∨ 0 < hsum h' := by
  have hk : nodata ∈ hkeys (histOf arr) := by
    by_contra hk
    rw [delKey_error hk] at hd
    cases hd
  rw [delKey_ok_of_mem hk] at hd
  injection hd with hd
  subst hd
  by_cases hnil : (histOf arr).filter (fun p => decide (p.1 ≠ nodata)) = []
  · exact Or.inl hnil
  · refine Or.inr (hsum_pos ?_ hnil)
    intro p hp
    exact histOf_pos (List.mem_of_mem_filter hp)

/-- The per-tile body of the array-level unweighted scorer raises KeyError
exactly when the tile array lacks the sentinel; otherwise it succeeds
(array-derived histograms never divide by zero). -/
theorem tileEntryArr_spec {region_lc : Hist} {nodata : Int} {arrOf : Nat → List Int}
    (hr : region_lc = [] ∨ 0 < hsum region_lc) (i : Nat) :
    (nodata ∉ arrOf i → tileEntryArr region_lc nodata arrOf i = .error .keyError) ∧
    (nodata ∈ arrOf i → ∃ b, tileEntryArr region_lc nodata arrOf i = .ok b) := by
  constructor
  · intro hmiss
    unfold tileEntryArr
    rw [delKey_error (fun hk => hmiss (mem_hkeys_histOf.mp hk))]
  · intro hmem
    have hdel := delKey_ok_of_mem (k := nodata) (mem_hkeys_histOf.mpr hmem)
    obtain ⟨q, hq⟩ := tileScore_ok hr (cleanHist_cases hdel)
    refine ⟨(i, q), ?_⟩
    unfold tileEntryArr
    rw [hdel]
    simp only [hq]

/-- Weighted analogue of tileEntryArr_spec. -/
theorem tileEntryArrW_spec {region_lc : Hist} {nodata : Int} {arrOf : Nat → List Int}
    {weight : Nat} (hr : region_lc = [] ∨ 0 < hsum region_lc) (i : Nat) :
    (nodata ∉ arrOf i →
      tileEntryArrW region_lc nodata arrOf weight i = .error .keyError) ∧
    (nodata ∈ arrOf i →
      ∃ b, tileEntryArrW region_lc nodata arrOf weight i = .ok b) := by
  constructor
  · intro hmiss
    unfold tileEntryArrW
    rw [delKey_error (fun hk => hmiss (mem_hkeys_histOf.mp hk))]
  · intro hmem
    have hdel := delKey_ok_of_mem (k := nodata) (mem_hkeys_histOf.mpr hmem)
    obtain ⟨q, hq⟩ := tileScoreW_ok (w := weight) hr (cleanHist_cases hdel)
    refine ⟨(i, q), ?_⟩
    unfold tileEntryArrW
    rw [hdel]
    simp only [hq]

/-- C10: in both scoring modes, if the region array or any candidate tile
array contains no cell equal to the no-data sentinel, the scorer fails
with a KeyError (del region_lc[nan] and del tile_lc[nan] are executed
unconditionally) instead of producing a score table, and a scoring run
can succeed only when every histogram initially contains the sentinel as
a key. -/
theorem C10_sentinel_required (regionArr : List Int) (nodata : Int)
    (name_list : List Nat) (arrOf : Nat → List Int) :
    ((nodata ∉ regionArr ∨ ∃ i ∈ name_list, nodata ∉ arrOf i) →
      unweightedArr regionArr nodata name_list arrOf = .error .keyError ∧
      weightedArr regionArr nodata name_list arrOf = .error .keyError) ∧
    (∀ t, unweightedArr regionArr nodata name_list arrOf = .ok t →
      nodata ∈ regionArr ∧ ∀ i ∈ name_list, nodata ∈ arrOf i) ∧
    (∀ t, weightedArr regionArr nodata name_list arrOf = .ok t →
      nodata ∈ regionArr ∧ ∀ i ∈ name_list, nodata ∈ arrOf i) := by
  have hmain : (nodata ∉ regionArr ∨ ∃ i ∈ name_list, nodata ∉ arrOf i) →
      unweightedArr regionArr nodata name_list arrOf = .error .keyError ∧
      weightedArr regionArr nodata name_list arrOf = .error .keyError := by
    intro hmiss
    by_cases hreg : nodata ∈ regionArr
    · have hmisst : ∃ i ∈ name_list, nodata ∉ arrOf i := by
        rcases hmiss with h | h
        · exact absurd hreg h
        · exact h
      have hrdel := delKey_ok_of_mem (k := nodata) (mem_hkeys_histOf.mpr hreg)
      have hrcase := cleanHist_cases hrdel
      constructor
      · unfold unweightedArr
        rw [hrdel]
        have herr := mapE_first_error (e := .keyError)
          (f := tileEntryArr ((histOf regionArr).filter
            (fun p => decide (p.1 ≠ nodata))) nodata arrOf) (l := name_list)
          (fun i _ => by
            by_cases hi : nodata ∈ arrOf i
            · exact Or.inr ((tileEntryArr_spec hrcase i).2 hi)
            · exact Or.inl ((tileEntryArr_spec hrcase i).1 hi))
          (by
            obtain ⟨i, hi, hm⟩ := hmisst
            exact ⟨i, hi, (tileEntryArr_spec hrcase i).1 hm⟩)
        simp only [herr]
      · unfold weightedArr
        rw [hrdel]
        refine mapE_error_of_forall (fun w _ => ?_) (by decide)
        unfold weightEntryArr
        have herr := mapE_first_error (e := .keyError)
          (f := tileEntryArrW ((histOf regionArr).filter
            (fun p => decide (p.1 ≠ nodata))) nodata arrOf w) (l := sortNat name_list)
          (fun i _ => by
            by_cases hi : nodata ∈ arrOf i
            · exact Or.inr ((tileEntryArrW_spec hrcase i).2 hi)
            · exact Or.inl ((tileEntryArrW_spec hrcase i).1 hi))
          (by
            obtain ⟨i, hi, hm⟩ := hmisst
            exact ⟨i, mem_sortNat.mpr hi, (tileEntryArrW_spec hrcase i).1 hm⟩)
        simp only [herr]
    · have hrdel : delKey (histOf regionArr) nodata = .error .keyError :=
        delKey_error (fun hk => hreg (mem_hkeys_histOf.mp hk))
      constructor
      · unfold unweightedArr
        rw [hrdel]
      · unfold weightedArr
        rw [hrdel]
  refine ⟨hmain, ?_, ?_⟩
  · intro t ht
    by_contra hcon
    have hmiss : nodata ∉ regionArr ∨ ∃ i ∈ name_list, nodata ∉ arrOf i := by
      by_cases hreg : nodata ∈ regionArr
      · right
        rcases not_and_or.mp hcon with h | h
        · exact absurd hreg h
        · push_neg at h
          exact h
      · exact Or.inl hreg
    rw [(hmain hmiss).1] at ht
    cases ht
  · intro t ht
    by_contra hcon
    have hmiss : nodata ∉ regionArr ∨ ∃ i ∈ name_list, nodata ∉ arrOf i := by
      by_cases hreg : nodata ∈ regionArr
      · right
        rcases not_and_or.mp hcon with h | h
        · exact absurd hreg h
        · push_neg at h
          exact h
      · exact Or.inl hreg
    rw [(hmain hmiss).2] at ht
    cases ht

/-- C10, witness at a concrete input: region array [3, 1] (sentinel 3
present) with the single candidate 0 whose array [2] lacks the sentinel;
both modes raise KeyError. -/
theorem C10_witness :
    unweightedArr [3, 1] 3 [0] (fun _ => [2]) = .error .keyError ∧
    weightedArr [3, 1] 3 [0] (fun _ => [2]) = .error .keyError :=
  (C10_sentinel_required [3, 1] 3 [0] (fun _ => [2])).1 (by decide)

end Canopy
